import Mathlib

/-!
SimpleVector: a shallow embedding of `simple_vector.h`.

The container of `src/simple-vector/simple_vector.h` is embedded as a record of
its three private fields.  Every member function becomes a function on that
record.  A raw buffer is a list with one entry per allocated slot, and every
access through a raw pointer is checked against the number of slots: an access
outside the allocation (undefined behaviour in C++) makes the operation return
`none`, and so does a failed `assert`.

`size_t` is modelled by `Nat`: an allocation of `2^63` elements fails long
before `size_ + 1` or `capacity_ * 2` can wrap.

A parameter of reference type that can be bound to an element of the container
itself (`PushBack`, `Insert`) is an `Arg`: an object outside the buffer, or a
slot of the buffer, read at the point where the source reads it.

Moving an element is modelled as copying it.  The buffers and values moved from
are discarded or assigned again by the code embedded below, except the last
slot after `Erase`, which lies outside the logical contents; no statement below
depends on the value such a slot keeps.
-/

set_option autoImplicit false

/-! ## The raw buffer owner (`array_ptr.h`) -/

/-- Modelled from the spec: `array_ptr.h` is included by `simple_vector.h` but is
not among the sources.  The buffer owner holds one heap allocation of a fixed
number of elements; it is embedded as the list of its slots, so the length of
the list is the number of allocated slots and the empty list is the null
owner. -/
abbrev ArrayPtr (α : Type) := List α

namespace ArrayPtr

variable {α : Type}

/-- Modelled from the spec: the constructor `ArrayPtr<Type>(n)` of the missing
`array_ptr.h` "creates storage for exactly `n` default-valued elements (n=0 is
the empty/null state)". -/
def alloc [Inhabited α] (n : Nat) : ArrayPtr α := List.replicate n default

/-- Reading `p[i]`: the value of slot `i`, or `none` outside the allocation. -/
def read (p : ArrayPtr α) (i : Nat) : Option α := p[i]?

/-- Assigning `p[i] = x`: the updated buffer, or `none` outside the allocation. -/
def write (p : ArrayPtr α) (i : Nat) (x : α) : Option (ArrayPtr α) :=
  if i < p.length then some (p.set i x) else none

end ArrayPtr

/-! ## The standard algorithms the container calls -/

section Algorithms

variable {α : Type}

/-- The loop of `std::fill`: `n` times `*first++ = value`. -/
def fill_loop : Nat → ArrayPtr α → Nat → α → Option (ArrayPtr α)
  | 0, p, _, _ => some p
  | n + 1, p, first, value => do
      let p1 ← p.write first value
      fill_loop n p1 (first + 1) value

/-- The call `std::fill(p + first, p + last, value)`. -/
def std_fill (p : ArrayPtr α) (first last : Nat) (value : α) : Option (ArrayPtr α) :=
  if last < first then none else fill_loop (last - first) p first value

/-- The loop of `std::copy` (and of `std::move`) between two distinct buffers:
`n` times `*d_first++ = *first++`. -/
def copy_loop (src : ArrayPtr α) : Nat → Nat → ArrayPtr α → Nat → Option (ArrayPtr α)
  | 0, _, dst, _ => some dst
  | n + 1, first, dst, d_first => do
      let x ← src.read first
      let dst1 ← dst.write d_first x
      copy_loop src n (first + 1) dst1 (d_first + 1)

/-- The call `std::copy(src + first, src + last, dst + d_first)`, which is also
`std::move(src + first, src + last, dst + d_first)`, for distinct buffers. -/
def std_copy (src : ArrayPtr α) (first last : Nat) (dst : ArrayPtr α) (d_first : Nat) :
    Option (ArrayPtr α) :=
  if last < first then none else copy_loop src (last - first) first dst d_first

/-- The loop of `std::copy_backward` (and of `std::move_backward`) between two
distinct buffers: `n` times `*(--d_last) = *(--last)`. -/
def copy_backward_loop (src : ArrayPtr α) : Nat → Nat → ArrayPtr α → Nat → Option (ArrayPtr α)
  | 0, _, dst, _ => some dst
  | _ + 1, 0, _, _ => none
  | _ + 1, _ + 1, _, 0 => none
  | n + 1, last + 1, dst, d_last + 1 => do
      let x ← src.read last
      let dst1 ← dst.write d_last x
      copy_backward_loop src n last dst1 d_last

/-- The call `std::copy_backward(src + first, src + last, dst + d_last)`, which
is also `std::move_backward` with the same arguments, for distinct buffers. -/
def std_copy_backward (src : ArrayPtr α) (first last : Nat) (dst : ArrayPtr α) (d_last : Nat) :
    Option (ArrayPtr α) :=
  if last < first then none else copy_backward_loop src (last - first) last dst d_last

/-- The loop of `std::copy_backward` (and of `std::move_backward`) when source
and destination are the same buffer: `n` times `*(--d_last) = *(--last)`, every
read seeing the writes made before it. -/
def copy_backward_within_loop : Nat → ArrayPtr α → Nat → Nat → Option (ArrayPtr α)
  | 0, p, _, _ => some p
  | _ + 1, _, 0, _ => none
  | _ + 1, _, _ + 1, 0 => none
  | n + 1, p, last + 1, d_last + 1 => do
      let x ← p.read last
      let p1 ← p.write d_last x
      copy_backward_within_loop n p1 last d_last

/-- The call `std::copy_backward(p + first, p + last, p + d_last)`, which is
also `std::move_backward` with the same arguments, inside one buffer. -/
def std_copy_backward_within (p : ArrayPtr α) (first last d_last : Nat) : Option (ArrayPtr α) :=
  if last < first then none else copy_backward_within_loop (last - first) p last d_last

/-- The loop of `std::equal` with three iterators: compare `*first1++` with
`*first2++`, `n` times, stopping at the first difference. -/
def equal_loop [DecidableEq α] (a b : ArrayPtr α) : Nat → Nat → Nat → Option Bool
  | 0, _, _ => some true
  | n + 1, first1, first2 => do
      let x ← a.read first1
      let y ← b.read first2
      if x = y then equal_loop a b n (first1 + 1) (first2 + 1) else some false

/-- The call `std::equal(a + first1, a + last1, b + first2)`. -/
def std_equal [DecidableEq α] (a : ArrayPtr α) (first1 last1 : Nat) (b : ArrayPtr α)
    (first2 : Nat) : Option Bool :=
  if last1 < first1 then none else equal_loop a b (last1 - first1) first1 first2

/-- The loop of `std::move` when source and destination are the same buffer:
`n` times `*d_first++ = std::move(*first++)`, every read seeing the writes made
before it.  A moved-from slot keeps its value in the embedding; C++ leaves that
value unspecified. -/
def move_within_loop : Nat → ArrayPtr α → Nat → Nat → Option (ArrayPtr α)
  | 0, p, _, _ => some p
  | n + 1, p, first, d_first => do
      let x ← p.read first
      let p1 ← p.write d_first x
      move_within_loop n p1 (first + 1) (d_first + 1)

/-- The call `std::move(p + first, p + last, p + d_first)` inside one buffer. -/
def std_move_within (p : ArrayPtr α) (first last d_first : Nat) : Option (ArrayPtr α) :=
  if last < first then none else move_within_loop (last - first) p first d_first

/-- The loop of `std::lexicographical_compare`, with `n1 = last1 - first1` and
`n2 = last2 - first2` elements left: while both ranges are non-empty, return
`true` if `*first1 < *first2`, `false` if `*first2 < *first1`, else advance
both; at the end return `first1 == last1 && first2 != last2`. -/
def lexicographical_compare_loop [LT α] [DecidableRel (α := α) (· < ·)] (a b : ArrayPtr α) :
    Nat → Nat → Nat → Nat → Option Bool
  | 0, _, n2, _ => some (decide (n2 ≠ 0))
  | _ + 1, _, 0, _ => some false
  | n1 + 1, first1, n2 + 1, first2 => do
      let x ← a.read first1
      let y ← b.read first2
      if x < y then some true
      else if y < x then some false
      else lexicographical_compare_loop a b n1 (first1 + 1) n2 (first2 + 1)

/-- The call
`std::lexicographical_compare(a + first1, a + last1, b + first2, b + last2)`. -/
def std_lexicographical_compare [LT α] [DecidableRel (α := α) (· < ·)] (a : ArrayPtr α)
    (first1 last1 : Nat) (b : ArrayPtr α) (first2 last2 : Nat) : Option Bool :=
  if last1 < first1 ∨ last2 < first2 then none
  else lexicographical_compare_loop a b (last1 - first1) first1 (last2 - first2) first2

end Algorithms

/-! ## The container -/

/-- The private fields of `SimpleVector<Type>`: the buffer owner `items_`, the
logical size `size_` and the capacity counter `capacity_`. -/
structure SimpleVector (α : Type) where
  items_ : ArrayPtr α
  size_ : Nat
  capacity_ : Nat
deriving DecidableEq, Repr

namespace SimpleVector

variable {α : Type}

/-- The constructor `SimpleVector() noexcept = default`: a null buffer and the default
member initialisers `size_ = 0`, `capacity_ = 0`. -/
def ctor_default : SimpleVector α := ⟨[], 0, 0⟩

/-- The constructor `SimpleVector(size_t size, const Type& value)`. -/
def ctor_size_value [Inhabited α] (size : Nat) (value : α) : Option (SimpleVector α) := do
  let items ← std_fill (ArrayPtr.alloc size) 0 size value
  some ⟨items, size, size⟩

/-- The constructor `SimpleVector(size_t size)`, which delegates to
`SimpleVector(size, Type())`. -/
def ctor_size [Inhabited α] (size : Nat) : Option (SimpleVector α) :=
  ctor_size_value size default

/-- The constructor `SimpleVector(std::initializer_list<Type> init)`. -/
def ctor_init_list [Inhabited α] (init : List α) : Option (SimpleVector α) := do
  let items ← std_copy init 0 init.length (ArrayPtr.alloc init.length) 0
  some ⟨items, init.length, init.length⟩

/-- The copy constructor `SimpleVector(const SimpleVector& other)`.  Its
initialiser list names `items_` and `size_` only, so `capacity_` keeps its
default member initialiser `0`. -/
def ctor_copy [Inhabited α] (other : SimpleVector α) : Option (SimpleVector α) := do
  let items ← std_copy other.items_ 0 other.size_ (ArrayPtr.alloc other.capacity_) 0
  some ⟨items, other.size_, 0⟩

/-- The member `swap(SimpleVector& other)`: the pair of `*this` and `other`
after the call. -/
def swap (this other : SimpleVector α) : SimpleVector α × SimpleVector α :=
  (⟨other.items_, other.size_, other.capacity_⟩, ⟨this.items_, this.size_, this.capacity_⟩)

/-- The move constructor `SimpleVector(SimpleVector&& other)`: it allocates
`other.capacity_` slots, leaves the counters at their defaults and swaps with
`other`.  The result is the pair of the new container and `other` after the
call. -/
def ctor_move [Inhabited α] (other : SimpleVector α) : SimpleVector α × SimpleVector α :=
  swap ⟨ArrayPtr.alloc other.capacity_, 0, 0⟩ other

/-- The accessor `GetSize()`. -/
def GetSize (v : SimpleVector α) : Nat := v.size_

/-- The accessor `GetCapacity()`. -/
def GetCapacity (v : SimpleVector α) : Nat := v.capacity_

/-- The member `Reserve(size_t new_capacity)`. -/
def Reserve [Inhabited α] (v : SimpleVector α) (new_capacity : Nat) : Option (SimpleVector α) :=
  if new_capacity > v.capacity_ then do
    let temp ← std_copy v.items_ 0 v.size_ (ArrayPtr.alloc new_capacity) 0
    some ⟨temp, v.size_, new_capacity⟩
  else some v

/-- The constructor `SimpleVector(ReserveProxyObj obj)`: default member
initialisers, then `Reserve(obj.GetCapacity())`. -/
def ctor_reserve [Inhabited α] (capacity_to_reserve : Nat) : Option (SimpleVector α) :=
  Reserve ctor_default capacity_to_reserve

/-- The copy assignment `operator=(const SimpleVector& rhs)` for `this != &rhs`:
copy-construct `temp` from `rhs` and swap with it. -/
def assign_copy [Inhabited α] (this rhs : SimpleVector α) : Option (SimpleVector α) := do
  let temp ← ctor_copy rhs
  some (swap this temp).1

/-- The guard `size_ + 1 > capacity_` of the growth branch of `PushBack`. -/
def needs_growth (v : SimpleVector α) : Bool := decide (v.size_ + 1 > v.capacity_)

/-- The object a reference parameter of `PushBack` or `Insert` is bound to: an
object outside the buffer of the container, given by its value, or the element
in slot `j` of the buffer the container owns when the call starts (as in
`v.PushBack(v[0])`). -/
inductive Arg (α : Type) where
  | value (x : α)
  | self (j : Nat)
deriving DecidableEq, Repr

/-- Reading through a reference parameter.  `referent` is the buffer the
container owned when the call started, in its present state, or `none` once
that buffer has been freed: reading an element of a freed buffer is undefined
behaviour.  The buffer is freed by the destructor of `ArrayPtr`, which the
specification describes ("frees the held allocation, if any") and whose header
is not among the sources. -/
def Arg.deref : Arg α → Option (ArrayPtr α) → Option α
  | Arg.value x, _ => some x
  | Arg.self _, none => none
  | Arg.self j, some p => p.read j

/-- The member `PushBack(const Type& item)`.  In the growth branch `temp` holds
the old buffer after `items_.swap(temp)` and frees it at the end of the block,
before `items_[size_] = item` reads `item`. -/
def PushBack [Inhabited α] (v : SimpleVector α) (item : Arg α) : Option (SimpleVector α) := do
  let r ←
    if v.needs_growth then do
      let new_capacity := max (v.size_ + 1) (v.capacity_ * 2)
      let temp : ArrayPtr α := ArrayPtr.alloc new_capacity
      let temp ← std_fill temp 0 new_capacity default
      let temp ← std_copy v.items_ 0 v.size_ temp 0
      some ((⟨temp, v.size_, new_capacity⟩ : SimpleVector α), (none : Option (ArrayPtr α)))
    else some (v, some v.items_)
  let x ← item.deref r.2
  let items ← r.1.items_.write r.1.size_ x
  some ⟨items, r.1.size_ + 1, r.1.capacity_⟩

/-- The member `PushBack(Type&& item)`; the old buffer is freed before `item` is
read, as in the copying overload. -/
def PushBackMove [Inhabited α] (v : SimpleVector α) (item : Arg α) :
    Option (SimpleVector α) := do
  let r ←
    if v.needs_growth then do
      let new_capacity := max (v.size_ + 1) (v.capacity_ * 2)
      let temp : ArrayPtr α := ArrayPtr.alloc new_capacity
      let temp ← std_copy v.items_ 0 v.size_ temp 0
      some ((⟨temp, v.size_, new_capacity⟩ : SimpleVector α), (none : Option (ArrayPtr α)))
    else some (v, some v.items_)
  let x ← item.deref r.2
  let items ← r.1.items_.write r.1.size_ x
  some ⟨items, r.1.size_ + 1, r.1.capacity_⟩

/-- The member `Insert(ConstIterator pos, const Type& value)`, the position
given as the offset `count = pos - items_.Get()`.  `value` is read where the
source reads it: before the swap in the branches that allocate, after
`std::copy_backward` has shifted the elements in the branch that does not.  The
result is the container after the call and the offset of the returned
iterator. -/
def Insert [Inhabited α] (v : SimpleVector α) (count : Nat) (value : Arg α) :
    Option (SimpleVector α × Nat) :=
  if count > v.size_ then none
  else do
    let v1 ←
      if v.capacity_ = 0 then do
        let temp : ArrayPtr α := ArrayPtr.alloc 1
        let x ← value.deref (some v.items_)
        let temp ← temp.write count x
        some (⟨temp, v.size_, v.capacity_ + 1⟩ : SimpleVector α)
      else if v.size_ < v.capacity_ then do
        let items ← std_copy_backward_within v.items_ count v.size_ (v.size_ + 1)
        let x ← value.deref (some items)
        let items ← items.write count x
        some ⟨items, v.size_, v.capacity_⟩
      else do
        let new_capacity := max (v.size_ + 1) (v.capacity_ * 2)
        let temp : ArrayPtr α := ArrayPtr.alloc v.capacity_
        let temp ← std_copy v.items_ 0 v.size_ temp 0
        let temp ← std_copy_backward v.items_ count v.size_ temp (v.size_ + 1)
        let x ← value.deref (some v.items_)
        let temp ← temp.write count x
        some ⟨temp, v.size_, new_capacity⟩
    some (⟨v1.items_, v1.size_ + 1, v1.capacity_⟩, count)

/-- The member `Insert(Iterator pos, Type&& value)`: the same three branches
with `std::move` and `std::move_backward` in place of the copying algorithms,
and `value` read at the same places. -/
def InsertMove [Inhabited α] (v : SimpleVector α) (count : Nat) (value : Arg α) :
    Option (SimpleVector α × Nat) :=
  if count > v.size_ then none
  else do
    let v1 ←
      if v.capacity_ = 0 then do
        let temp : ArrayPtr α := ArrayPtr.alloc 1
        let x ← value.deref (some v.items_)
        let temp ← temp.write count x
        some (⟨temp, v.size_, v.capacity_ + 1⟩ : SimpleVector α)
      else if v.size_ < v.capacity_ then do
        let items ← std_copy_backward_within v.items_ count v.size_ (v.size_ + 1)
        let x ← value.deref (some items)
        let items ← items.write count x
        some ⟨items, v.size_, v.capacity_⟩
      else do
        let new_capacity := max (v.size_ + 1) (v.capacity_ * 2)
        let temp : ArrayPtr α := ArrayPtr.alloc v.capacity_
        let temp ← std_copy v.items_ 0 v.size_ temp 0
        let temp ← std_copy_backward v.items_ count v.size_ temp (v.size_ + 1)
        let x ← value.deref (some v.items_)
        let temp ← temp.write count x
        some ⟨temp, v.size_, new_capacity⟩
    some (⟨v1.items_, v1.size_ + 1, v1.capacity_⟩, count)

/-- The free function `operator==`: `std::equal(lhs.begin(), lhs.end(), rhs.begin())`. -/
def operator_eq [DecidableEq α] (lhs rhs : SimpleVector α) : Option Bool :=
  std_equal lhs.items_ 0 lhs.size_ rhs.items_ 0

/-- The free function `operator!=`: `!std::equal(lhs.begin(), lhs.end(), rhs.begin())`. -/
def operator_ne [DecidableEq α] (lhs rhs : SimpleVector α) : Option Bool :=
  (std_equal lhs.items_ 0 lhs.size_ rhs.items_ 0).map not

/-- The unchecked access `operator[](size_t index)`: `assert(index < size_)`,
then the element of slot `index`. -/
def index_op (v : SimpleVector α) (index : Nat) : Option α :=
  if index < v.size_ then v.items_.read index else none

/-- The member `Clear()`. -/
def Clear (v : SimpleVector α) : SimpleVector α := ⟨v.items_, 0, v.capacity_⟩

/-- The member `Erase(ConstIterator pos)`, the position given as the offset
`count = pos - items_.Get()`: `assert(pos >= begin() && pos < end())`, move the
elements after `pos` one slot to the left, `--size_`.  The result is the
container after the call and the offset of the returned iterator. -/
def Erase (v : SimpleVector α) (count : Nat) : Option (SimpleVector α × Nat) :=
  if count < v.size_ then do
    let items ← std_move_within v.items_ (count + 1) v.size_ count
    some (⟨items, v.size_ - 1, v.capacity_⟩, count)
  else none

/-- The move assignment `operator=(SimpleVector&& rhs)` for `this != &rhs`.
Inside the function `rhs` is an lvalue, so `auto temp(rhs)` calls the copy
constructor; then `swap(temp)`.  The result is the pair of `*this` and `rhs`
after the call. -/
def assign_move [Inhabited α] (this rhs : SimpleVector α) :
    Option (SimpleVector α × SimpleVector α) := do
  let temp ← ctor_copy rhs
  some ((swap this temp).1, rhs)

/-- The free function `operator<`:
`std::lexicographical_compare(lhs.begin(), lhs.end(), rhs.begin(), rhs.end())`. -/
def operator_lt [LT α] [DecidableRel (α := α) (· < ·)] (lhs rhs : SimpleVector α) :
    Option Bool :=
  std_lexicographical_compare lhs.items_ 0 lhs.size_ rhs.items_ 0 rhs.size_

/-- The free function `operator>=`: `!(lhs < rhs)`. -/
def operator_ge [LT α] [DecidableRel (α := α) (· < ·)] (lhs rhs : SimpleVector α) :
    Option Bool :=
  (operator_lt lhs rhs).map not

/-- The free function `operator<=`: `(rhs >= lhs)`. -/
def operator_le [LT α] [DecidableRel (α := α) (· < ·)] (lhs rhs : SimpleVector α) :
    Option Bool :=
  operator_ge rhs lhs

/-- The free function `operator>`: `(rhs < lhs)`. -/
def operator_gt [LT α] [DecidableRel (α := α) (· < ·)] (lhs rhs : SimpleVector α) :
    Option Bool :=
  operator_lt rhs lhs

/-! ## Notions of the specification -/

/-- The logical contents: the elements at the indices `[0, size_)`, as the
iteration from `begin()` to `end()` produces them; `none` when the buffer has
fewer than `size_` slots. -/
def contents (v : SimpleVector α) : Option (List α) :=
  if v.size_ ≤ v.items_.length then some (v.items_.take v.size_) else none

/-- The invariants of the data model: `size ≤ capacity`, and the capacity
counter is the number of slots of the owned buffer. -/
def Inv (v : SimpleVector α) : Prop :=
  v.size_ ≤ v.capacity_ ∧ v.capacity_ = v.items_.length

instance (v : SimpleVector α) : Decidable v.Inv := by
  unfold Inv; infer_instance

/-- The two overloads of `PushBack`, selected by a flag, called with an object
`item` that lies outside the buffer of the container: `PushBack(Type&&)` when
`by_move` is set, `PushBack(const Type&)` otherwise. -/
def push [Inhabited α] (by_move : Bool) (v : SimpleVector α) (item : α) :
    Option (SimpleVector α) :=
  if by_move then v.PushBackMove (Arg.value item) else v.PushBack (Arg.value item)

/-- A sequence of `PushBack` calls, each with its overload and its argument, an
object outside the buffer of the container. -/
def push_all [Inhabited α] : SimpleVector α → List (Bool × α) → Option (SimpleVector α)
  | v, [] => some v
  | v, (by_move, item) :: rest => do
      let v1 ← push by_move v item
      push_all v1 rest

/-- The lexicographic order of the specification, in its own words: `a` is
smaller than `b` when `a` is a proper initial segment of `b`, or when at the
first index where they differ the element of `a` is the smaller one. -/
def LexLess [LT α] (a b : List α) : Prop :=
  (∃ y t, b = a ++ y :: t) ∨
  (∃ p x s y t, a = p ++ x :: s ∧ b = p ++ y :: t ∧ x < y)

end SimpleVector


section AlgorithmLemmas

variable {α : Type}

theorem ArrayPtr.write_of_lt (p : ArrayPtr α) (i : Nat) (x : α) (h : i < p.length) :
    p.write i x = some (p.set i x) := by
  simp [ArrayPtr.write, h]

theorem ArrayPtr.write_of_le (p : ArrayPtr α) (i : Nat) (x : α) (h : p.length ≤ i) :
    p.write i x = none := by
  simp [ArrayPtr.write, Nat.not_lt.mpr h]

theorem ArrayPtr.read_of_lt (p : ArrayPtr α) (i : Nat) (h : i < p.length) :
    p.read i = some (p.get ⟨i, h⟩) := by
  simp [ArrayPtr.read, List.getElem?_eq_getElem h]

theorem list_set_take_succ (l : List α) (d : Nat) (x : α) (h : d < l.length) :
    (l.set d x).take (d + 1) = l.take d ++ [x] := by
  apply List.ext_getElem?
  intro i
  simp only [List.getElem?_take, List.getElem?_set, List.getElem?_append, List.length_take]
  have : min d l.length = d := by omega
  rw [this]
  by_cases h1 : i < d
  · have h2 : i < d + 1 := by omega
    have h3 : d ≠ i := by omega
    simp [h1, h2, h3]
  · by_cases h2 : i = d
    · subst h2; simp [h]
    · have h3 : ¬ i < d + 1 := by omega
      have h4 : ¬ i - d = 0 := by omega
      simp [h1, h3]
      cases hh : i - d with
      | zero => omega
      | succ k => simp

theorem fill_loop_eq (n : Nat) : ∀ (p : ArrayPtr α) (first : Nat) (value : α),
    first + n ≤ p.length →
    fill_loop n p first value
      = some (p.take first ++ List.replicate n value ++ p.drop (first + n)) := by
  induction n with
  | zero => intro p first value _; simp [fill_loop]
  | succ n ih =>
    intro p first value h
    have hlt : first < p.length := by omega
    have hlen : first + 1 + n ≤ (p.set first value).length := by simp; omega
    simp only [fill_loop, ArrayPtr.write_of_lt p first value hlt, Option.bind_eq_bind,
      Option.some_bind, ih (p.set first value) (first + 1) value hlen]
    rw [list_set_take_succ p first value hlt, List.drop_set_of_lt value p (by omega)]
    simp [List.replicate_succ, Nat.add_assoc, Nat.add_comm 1 n]

theorem copy_loop_eq (src : ArrayPtr α) (n : Nat) : ∀ (first : Nat) (dst : ArrayPtr α) (d : Nat),
    first + n ≤ src.length → d + n ≤ dst.length →
    copy_loop src n first dst d
      = some (dst.take d ++ (src.drop first).take n ++ dst.drop (d + n)) := by
  induction n with
  | zero => intro first dst d _ _; simp [copy_loop]
  | succ n ih =>
    intro first dst d hs hd
    have hlt : first < src.length := by omega
    have hdlt : d < dst.length := by omega
    have hlen : d + 1 + n ≤ (dst.set d (src.get ⟨first, hlt⟩)).length := by simp; omega
    simp only [copy_loop, ArrayPtr.read_of_lt src first hlt, ArrayPtr.write_of_lt dst d _ hdlt,
      Option.bind_eq_bind, Option.some_bind,
      ih (first + 1) (dst.set d (src.get ⟨first, hlt⟩)) (d + 1) (by omega) hlen]
    rw [list_set_take_succ dst d _ hdlt, List.drop_set_of_lt _ dst (by omega),
      List.drop_eq_getElem_cons hlt, List.take_succ_cons]
    simp [Nat.add_assoc, Nat.add_comm 1 n]

end AlgorithmLemmas

section AlgorithmLemmas2

variable {α : Type}

theorem std_fill_all [Inhabited α] (n : Nat) (value : α) :
    std_fill (ArrayPtr.alloc n : ArrayPtr α) 0 n value = some (List.replicate n value) := by
  have h := fill_loop_eq n (ArrayPtr.alloc n : ArrayPtr α) 0 value (by simp [ArrayPtr.alloc])
  simp only [ArrayPtr.alloc] at h
  simp [std_fill, h, ArrayPtr.alloc]

theorem std_copy_front (src dst : ArrayPtr α) (n : Nat) (hs : n ≤ src.length)
    (hd : n ≤ dst.length) :
    std_copy src 0 n dst 0 = some (src.take n ++ dst.drop n) := by
  have h := copy_loop_eq src n 0 dst 0 (by omega) (by omega)
  simp [std_copy, h]

theorem list_set_append_replicate (l : List α) (k : Nat) (d x : α) :
    (l ++ List.replicate (k + 1) d).set l.length x = l ++ x :: List.replicate k d := by
  simp [List.set_append, List.replicate_succ]

end AlgorithmLemmas2

namespace SimpleVector

variable {α : Type}

theorem PushBack_growth [Inhabited α] (v : SimpleVector α) (x : α)
    (hg : v.size_ + 1 > v.capacity_) (hs : v.size_ ≤ v.items_.length) :
    v.PushBack (Arg.value x) = some ⟨v.items_.take v.size_ ++
        x :: List.replicate (max (v.size_ + 1) (v.capacity_ * 2) - (v.size_ + 1)) default,
      v.size_ + 1, max (v.size_ + 1) (v.capacity_ * 2)⟩ := by
  obtain ⟨k, hk⟩ : ∃ k, max (v.size_ + 1) (v.capacity_ * 2) = v.size_ + (k + 1) :=
    ⟨max (v.size_ + 1) (v.capacity_ * 2) - (v.size_ + 1), by omega⟩
  have hlen : (v.items_.take v.size_).length = v.size_ := by simp [hs]
  have hset := list_set_append_replicate (v.items_.take v.size_) k (default : α) x
  rw [hlen] at hset
  have hcopy := std_copy_front v.items_ (List.replicate (v.size_ + (k + 1)) (default : α))
    v.size_ hs (by simp)
  have hw : ∀ l : List α, l.length = v.size_ →
      ArrayPtr.write (l ++ List.replicate (k + 1) (default : α)) v.size_ x
        = some ((l ++ List.replicate (k + 1) default).set v.size_ x) := by
    intro l hl
    exact ArrayPtr.write_of_lt _ _ _ (by simp [hl])
  simp only [PushBack, Arg.deref, needs_growth, hg, decide_True, if_true, hk, std_fill_all,
    Option.bind_eq_bind, Option.some_bind, hcopy, List.drop_replicate, Nat.add_sub_cancel_left,
    hw _ hlen, hset]
  have hk2 : v.size_ + (k + 1) - (v.size_ + 1) = k := by omega
  rw [hk2]

theorem PushBackMove_growth [Inhabited α] (v : SimpleVector α) (x : α)
    (hg : v.size_ + 1 > v.capacity_) (hs : v.size_ ≤ v.items_.length) :
    v.PushBackMove (Arg.value x) = some ⟨v.items_.take v.size_ ++
        x :: List.replicate (max (v.size_ + 1) (v.capacity_ * 2) - (v.size_ + 1)) default,
      v.size_ + 1, max (v.size_ + 1) (v.capacity_ * 2)⟩ := by
  obtain ⟨k, hk⟩ : ∃ k, max (v.size_ + 1) (v.capacity_ * 2) = v.size_ + (k + 1) :=
    ⟨max (v.size_ + 1) (v.capacity_ * 2) - (v.size_ + 1), by omega⟩
  have hlen : (v.items_.take v.size_).length = v.size_ := by simp [hs]
  have hset := list_set_append_replicate (v.items_.take v.size_) k (default : α) x
  rw [hlen] at hset
  have hcopy := std_copy_front v.items_ (List.replicate (v.size_ + (k + 1)) (default : α))
    v.size_ hs (by simp)
  have hw : ∀ l : List α, l.length = v.size_ →
      ArrayPtr.write (l ++ List.replicate (k + 1) (default : α)) v.size_ x
        = some ((l ++ List.replicate (k + 1) default).set v.size_ x) := by
    intro l hl
    exact ArrayPtr.write_of_lt _ _ _ (by simp [hl])
  simp only [PushBackMove, Arg.deref, needs_growth, hg, decide_True, if_true, hk, ArrayPtr.alloc,
    Option.bind_eq_bind, Option.some_bind, hcopy, List.drop_replicate, Nat.add_sub_cancel_left,
    hw _ hlen, hset]
  have hk2 : v.size_ + (k + 1) - (v.size_ + 1) = k := by omega
  rw [hk2]

theorem PushBack_in_place [Inhabited α] (v : SimpleVector α) (x : α)
    (hg : ¬ v.size_ + 1 > v.capacity_) (hs : v.size_ < v.items_.length) :
    v.PushBack (Arg.value x) = some ⟨v.items_.set v.size_ x, v.size_ + 1, v.capacity_⟩ := by
  simp [PushBack, Arg.deref, needs_growth, hg, ArrayPtr.write_of_lt _ _ _ hs]

theorem PushBackMove_in_place [Inhabited α] (v : SimpleVector α) (x : α)
    (hg : ¬ v.size_ + 1 > v.capacity_) (hs : v.size_ < v.items_.length) :
    v.PushBackMove (Arg.value x) = some ⟨v.items_.set v.size_ x, v.size_ + 1, v.capacity_⟩ := by
  simp [PushBackMove, Arg.deref, needs_growth, hg, ArrayPtr.write_of_lt _ _ _ hs]

end SimpleVector

namespace SimpleVector

variable {α : Type}

theorem contents_of_le (v : SimpleVector α) (h : v.size_ ≤ v.items_.length) :
    v.contents = some (v.items_.take v.size_) := by
  simp [contents, h]

theorem Inv.contents_eq {v : SimpleVector α} (h : v.Inv) :
    v.contents = some (v.items_.take v.size_) :=
  contents_of_le v (by unfold Inv at h; omega)

theorem read_take_append (l t : List α) (n i : Nat) (hn : n ≤ l.length) (hi : i < n) :
    ArrayPtr.read (l.take n ++ t) i = ArrayPtr.read l i := by
  simp [ArrayPtr.read, List.getElem?_append, List.getElem?_take, hi,
    show i < min n l.length by omega]

theorem read_set_ne (l : List α) (n i : Nat) (x : α) (hi : i < n) :
    ArrayPtr.read (l.set n x) i = ArrayPtr.read l i := by
  simp [ArrayPtr.read, List.getElem?_set, show n ≠ i by omega]

/-- Both overloads of `PushBack`, on a container that satisfies the invariants
of the data model: the call returns, the result satisfies the invariants again,
the size grows by one, the old elements keep their places with the new element
after them, and the capacity follows the guard of the growth branch. -/
theorem push_spec [Inhabited α] (by_move : Bool) (v : SimpleVector α) (x : α) (hv : v.Inv) :
    ∃ w, push by_move v x = some w ∧ w.Inv ∧ w.size_ = v.size_ + 1 ∧
      w.items_.take w.size_ = v.items_.take v.size_ ++ [x] ∧
      (∀ i, i < v.size_ → w.items_.read i = v.items_.read i) ∧
      w.items_.read v.size_ = some x ∧
      w.capacity_ = if v.needs_growth then max (v.size_ + 1) (v.capacity_ * 2)
        else v.capacity_ := by
  obtain ⟨h1, h2⟩ := hv
  by_cases hg : v.size_ + 1 > v.capacity_
  · have hs : v.size_ ≤ v.items_.length := by omega
    have hlen : (v.items_.take v.size_).length = v.size_ := by simp [hs]
    refine ⟨⟨v.items_.take v.size_ ++
        x :: List.replicate (max (v.size_ + 1) (v.capacity_ * 2) - (v.size_ + 1)) default,
      v.size_ + 1, max (v.size_ + 1) (v.capacity_ * 2)⟩, ?_, ?_, rfl, ?_, ?_, ?_, ?_⟩
    · cases by_move
      · simpa [push] using PushBack_growth v x hg hs
      · simpa [push] using PushBackMove_growth v x hg hs
    · constructor
      · simp only; omega
      · simp only [List.length_append, List.length_cons, List.length_replicate, hlen]; omega
    · simp only
      rw [show v.items_.take v.size_ ++ x :: List.replicate _ default
          = (v.items_.take v.size_ ++ [x]) ++ List.replicate
            (max (v.size_ + 1) (v.capacity_ * 2) - (v.size_ + 1)) default by simp]
      exact List.take_left' (by simp [hlen])
    · intro i hi
      exact read_take_append v.items_ _ v.size_ i hs hi
    · show (v.items_.take v.size_ ++ x :: List.replicate _ default)[v.size_]? = some x
      rw [List.getElem?_append_right (by omega)]
      simp [hlen]
    · simp [needs_growth, hg]
  · have hs : v.size_ < v.items_.length := by omega
    refine ⟨⟨v.items_.set v.size_ x, v.size_ + 1, v.capacity_⟩, ?_, ?_, rfl, ?_, ?_, ?_, ?_⟩
    · cases by_move
      · simpa [push] using PushBack_in_place v x hg hs
      · simpa [push] using PushBackMove_in_place v x hg hs
    · constructor
      · simp only; omega
      · simp only [List.length_set]; exact h2
    · exact list_set_take_succ v.items_ v.size_ x hs
    · intro i hi
      exact read_set_ne v.items_ v.size_ i x hi
    · simp [ArrayPtr.read, List.getElem?_set, hs]
    · simp [needs_growth, hg]

/-- A run of `PushBack` calls that fits in the capacity never takes the growth
branch: the capacity counter stays what it was. -/
theorem push_all_capacity [Inhabited α] (ops : List (Bool × α)) :
    ∀ v : SimpleVector α, v.Inv → v.size_ + ops.length ≤ v.capacity_ →
      ∃ u, push_all v ops = some u ∧ u.Inv ∧ u.size_ = v.size_ + ops.length ∧
        u.capacity_ = v.capacity_ := by
  induction ops with
  | nil => intro v hv _; exact ⟨v, by simp [push_all], hv, by simp, rfl⟩
  | cons p rest ih =>
    intro v hv hle
    obtain ⟨m, x⟩ := p
    simp only [List.length_cons] at hle
    obtain ⟨w, hw, hwi, hws, -, -, -, hwc⟩ := push_spec m v x hv
    have hg : v.needs_growth = false := by simp [needs_growth]; omega
    rw [hg] at hwc
    simp only [Bool.false_eq_true, if_false] at hwc
    obtain ⟨u, hu, hui, hus, huc⟩ := ih w hwi (by omega)
    refine ⟨u, ?_, hui, ?_, ?_⟩
    · simp [push_all, hw, hu]
    · simp [hus, hws]; omega
    · omega

theorem Reserve_growth [Inhabited α] (v : SimpleVector α) (new_capacity : Nat)
    (hg : new_capacity > v.capacity_) (hs : v.size_ ≤ v.items_.length)
    (hn : v.size_ ≤ new_capacity) :
    v.Reserve new_capacity = some ⟨v.items_.take v.size_ ++
      List.replicate (new_capacity - v.size_) default, v.size_, new_capacity⟩ := by
  have hcopy := std_copy_front v.items_ (List.replicate new_capacity (default : α))
    v.size_ hs (by simp [hn])
  simp [Reserve, hg, ArrayPtr.alloc, hcopy]

theorem Reserve_no_op [Inhabited α] (v : SimpleVector α) (new_capacity : Nat)
    (hg : new_capacity ≤ v.capacity_) : v.Reserve new_capacity = some v := by
  simp [Reserve, Nat.not_lt.mpr hg]

/-- The member `Reserve` on a container that satisfies the invariants. -/
theorem Reserve_spec [Inhabited α] (v : SimpleVector α) (new_capacity : Nat) (hv : v.Inv) :
    ∃ w, v.Reserve new_capacity = some w ∧ w.Inv ∧ w.size_ = v.size_ ∧
      w.items_.take w.size_ = v.items_.take v.size_ ∧
      (∀ i, i < v.size_ → w.items_.read i = v.items_.read i) ∧
      w.capacity_ = max v.capacity_ new_capacity ∧
      (new_capacity ≤ v.capacity_ → w = v) := by
  obtain ⟨h1, h2⟩ := hv
  by_cases hg : new_capacity > v.capacity_
  · have hs : v.size_ ≤ v.items_.length := by omega
    have hlen : (v.items_.take v.size_).length = v.size_ := by simp [hs]
    refine ⟨_, Reserve_growth v new_capacity hg hs (by omega), ?_, rfl, ?_, ?_, ?_, ?_⟩
    · constructor
      · simp only; omega
      · simp only [List.length_append, List.length_replicate, hlen]; omega
    · exact List.take_left' hlen
    · intro i hi
      exact read_take_append v.items_ _ v.size_ i hs hi
    · simp only; omega
    · intro h; omega
  · refine ⟨v, Reserve_no_op v new_capacity (by omega), ⟨h1, h2⟩, rfl, rfl, ?_, ?_, ?_⟩
    · intro i _; rfl
    · omega
    · intro _; rfl

theorem ctor_copy_eq [Inhabited α] (other : SimpleVector α)
    (hs : other.size_ ≤ other.items_.length) (hc : other.size_ ≤ other.capacity_) :
    ctor_copy other = some ⟨other.items_.take other.size_ ++
      List.replicate (other.capacity_ - other.size_) default, other.size_, 0⟩ := by
  have hcopy := std_copy_front other.items_ (List.replicate other.capacity_ (default : α))
    other.size_ hs (by simp [hc])
  simp [ctor_copy, ArrayPtr.alloc, hcopy]

end SimpleVector

namespace SimpleVector

variable {α : Type}

theorem copy_backward_loop_past_end (src dst : ArrayPtr α) (n last d_last : Nat)
    (h1 : last < src.length) (h2 : dst.length ≤ d_last) :
    copy_backward_loop src (n + 1) (last + 1) dst (d_last + 1) = none := by
  simp [copy_backward_loop, ArrayPtr.read_of_lt src last h1, ArrayPtr.write_of_le dst d_last _ h2]

theorem full_branch_none [Inhabited α] (items : ArrayPtr α) (count : Nat) (value : α)
    (hc : count ≤ items.length) :
    (do
      let temp ← std_copy items 0 items.length (ArrayPtr.alloc items.length) 0
      let temp ← std_copy_backward items count items.length temp (items.length + 1)
      let temp ← temp.write count value
      some temp) = none := by
  have hcopy := std_copy_front items (ArrayPtr.alloc items.length) items.length (le_refl _)
    (by simp [ArrayPtr.alloc])
  simp only [List.take_length, ArrayPtr.alloc, List.drop_replicate, Nat.sub_self,
    List.replicate_zero, List.append_nil] at hcopy
  simp only [ArrayPtr.alloc, hcopy, Option.bind_eq_bind, Option.some_bind]
  rcases Nat.lt_or_eq_of_le hc with hlt | heq
  · obtain ⟨k, hk⟩ : ∃ k, items.length - count = k + 1 := ⟨items.length - count - 1, by omega⟩
    obtain ⟨m, hm⟩ : ∃ m, items.length = m + 1 := ⟨items.length - 1, by omega⟩
    have hback : std_copy_backward items count items.length items (items.length + 1) = none := by
      simp only [std_copy_backward, Nat.not_lt.mpr hc, if_false, hk]
      have := copy_backward_loop_past_end items items k m items.length (by omega) (le_refl _)
      rw [← hm] at this
      exact this
    simp [hback]
  · subst heq
    simp [std_copy_backward, copy_backward_loop, ArrayPtr.write_of_le items items.length value
      (le_refl _)]

theorem full_branch_write_none [Inhabited α] (items : ArrayPtr α) (count : Nat)
    (hc : count ≤ items.length) (t t2 : ArrayPtr α)
    (h1 : std_copy items 0 items.length (ArrayPtr.alloc items.length) 0 = some t)
    (h2 : std_copy_backward items count items.length t (items.length + 1) = some t2) (x : α) :
    t2.write count x = none := by
  have h := full_branch_none items count x hc
  simp only [h1, h2, Option.bind_eq_bind, Option.some_bind] at h
  cases hz : ArrayPtr.write t2 count x with
  | none => rfl
  | some t3 => rw [hz] at h; simp at h

/-- On a full container with a non-zero capacity both overloads of `Insert`
allocate `capacity_` slots and then assign to slot `size_ = capacity_`, one past
the end of that allocation, whatever the position and the argument. -/
theorem Insert_full_past_end [Inhabited α] (v : SimpleVector α) (count : Nat) (value : Arg α)
    (hv : v.Inv) (h0 : v.capacity_ ≠ 0) (hf : v.size_ = v.capacity_) :
    v.Insert count value = none ∧ v.InsertMove count value = none := by
  obtain ⟨_, h2⟩ := hv
  by_cases hcnt : count > v.size_
  · simp [Insert, InsertMove, hcnt]
  · have hlen : v.size_ = v.items_.length := by omega
    have hnl : ¬ v.items_.length < v.items_.length := lt_irrefl _
    have hcnt2 : ¬ count > v.items_.length := by omega
    have h00 : v.items_.length ≠ 0 := by omega
    constructor
    · simp only [Insert, hlen, ← h2, h0, hnl, hcnt2, if_false, Option.bind_eq_bind]
      simp only [h2] at *
      cases hx : (std_copy v.items_ 0 v.items_.length (ArrayPtr.alloc v.items_.length) 0) with
      | none => simp
      | some t =>
        simp only [Option.some_bind]
        cases hy : std_copy_backward v.items_ count v.items_.length t (v.items_.length + 1) with
        | none => simp
        | some t2 =>
          simp only [Option.some_bind]
          cases hd : value.deref (some v.items_) with
          | none => simp
          | some x =>
            simp [full_branch_write_none v.items_ count (by omega) t t2 hx hy x]
    · simp only [InsertMove, hlen, ← h2, h0, hnl, hcnt2, if_false, Option.bind_eq_bind]
      simp only [h2] at *
      cases hx : (std_copy v.items_ 0 v.items_.length (ArrayPtr.alloc v.items_.length) 0) with
      | none => simp
      | some t =>
        simp only [Option.some_bind]
        cases hy : std_copy_backward v.items_ count v.items_.length t (v.items_.length + 1) with
        | none => simp
        | some t2 =>
          simp only [Option.some_bind]
          cases hd : value.deref (some v.items_) with
          | none => simp
          | some x =>
            simp [full_branch_write_none v.items_ count (by omega) t t2 hx hy x]

end SimpleVector

/-! ## The claims -/

namespace SimpleVector

variable {α : Type}

/-- C1 (the code departs from the claim). `operator==` is
`std::equal(lhs.begin(), lhs.end(), rhs.begin())` with no comparison of the
sizes: the containers built from the lists `[1, 2]` and `[1, 2, 3]` have sizes
2 and 3, yet `operator==` returns `true` on them and `operator!=` returns
`false`. -/
theorem operator_eq_ignores_size :
    ctor_init_list [1, 2] = some (⟨[1, 2], 2, 2⟩ : SimpleVector Nat) ∧
    ctor_init_list [1, 2, 3] = some (⟨[1, 2, 3], 3, 3⟩ : SimpleVector Nat) ∧
    GetSize (⟨[1, 2], 2, 2⟩ : SimpleVector Nat) ≠ GetSize (⟨[1, 2, 3], 3, 3⟩ : SimpleVector Nat) ∧
    operator_eq (⟨[1, 2], 2, 2⟩ : SimpleVector Nat) ⟨[1, 2, 3], 3, 3⟩ = some true ∧
    operator_ne (⟨[1, 2], 2, 2⟩ : SimpleVector Nat) ⟨[1, 2, 3], 3, 3⟩ = some false := by
  decide

/-- C2 (the code departs from the claim). Inserting 99 at index 1 into the full
container `[10, 20, 30]` (size 3, capacity 3): the full branch allocates
`capacity_ = 3` slots instead of `new_capacity = 6`, and `std::copy_backward`
then assigns to slot 3 of that buffer, outside the allocation; the same holds
for the move overload and for insertion at `end()`.  The branch for capacity 0
stays inside its one-slot buffer. -/
theorem Insert_full_writes_past_end :
    ctor_init_list [10, 20, 30] = some (⟨[10, 20, 30], 3, 3⟩ : SimpleVector Nat) ∧
    Insert (⟨[10, 20, 30], 3, 3⟩ : SimpleVector Nat) 1 (Arg.value 99) = none ∧
    InsertMove (⟨[10, 20, 30], 3, 3⟩ : SimpleVector Nat) 1 (Arg.value 99) = none ∧
    Insert (⟨[10, 20, 30], 3, 3⟩ : SimpleVector Nat) 3 (Arg.value 99) = none ∧
    std_copy [10, 20, 30] 0 3 (ArrayPtr.alloc 3 : ArrayPtr Nat) 0 = some [10, 20, 30] ∧
    std_copy_backward [10, 20, 30] 1 3 ([10, 20, 30] : ArrayPtr Nat) (3 + 1) = none ∧
    std_copy_backward [10, 20, 30] 1 3 ([10, 20, 30, 0, 0, 0] : ArrayPtr Nat) (3 + 1)
      = some [10, 20, 20, 30, 0, 0] ∧
    Insert (ctor_default : SimpleVector Nat) 0 (Arg.value 99) = some (⟨[99], 1, 1⟩, 0) := by
  decide

/-- The copy constructor and the copy assignment on a container whose size
exceeds neither the number of slots of its buffer nor its capacity counter: the
result has the size of `v` and, at the indices `[0, size)`, the elements of
`v`. -/
theorem ctor_copy_same_size_and_elements [Inhabited α] (v : SimpleVector α)
    (hs : v.size_ ≤ v.items_.length) (hc : v.size_ ≤ v.capacity_) :
    ∃ w, ctor_copy v = some w ∧ w.size_ = v.size_ ∧
      v.contents = some (v.items_.take v.size_) ∧
      w.contents = some (v.items_.take v.size_) ∧
      (∀ i, i < v.size_ → w.items_.read i = v.items_.read i) ∧
      ∀ a : SimpleVector α, ∃ a1, assign_copy a v = some a1 ∧ a1.size_ = v.size_ ∧
        a1.contents = some (v.items_.take v.size_) ∧
        (∀ i, i < v.size_ → a1.items_.read i = v.items_.read i) := by
  have hlen : (v.items_.take v.size_).length = v.size_ := by simp [hs]
  have hcp := ctor_copy_eq v hs hc
  have hcont : (⟨v.items_.take v.size_ ++ List.replicate (v.capacity_ - v.size_) default,
      v.size_, 0⟩ : SimpleVector α).contents = some (v.items_.take v.size_) := by
    rw [contents_of_le _ (by simp [hlen])]
    exact congrArg some (List.take_left' hlen)
  refine ⟨_, hcp, rfl, contents_of_le v hs, hcont, ?_, ?_⟩
  · intro i hi
    exact read_take_append v.items_ _ v.size_ i hs hi
  · intro a
    refine ⟨⟨v.items_.take v.size_ ++ List.replicate (v.capacity_ - v.size_) default,
      v.size_, 0⟩, by simp [assign_copy, hcp, swap], rfl, hcont, ?_⟩
    intro i hi
    exact read_take_append v.items_ _ v.size_ i hs hi

/-- C3 (the code departs from the claim). The copy `w` of the container
`[1, 2, 3]` has size 3, the elements 1, 2, 3 and the capacity counter 0.  The
copy constructor applied to `w` allocates `w.capacity_ = 0` slots and then
copies the three elements of `w` into them, outside the allocation; the copy
assignment from `w` does the same. -/
theorem ctor_copy_of_copy_past_end :
    ctor_init_list [1, 2, 3] = some (⟨[1, 2, 3], 3, 3⟩ : SimpleVector Nat) ∧
    ctor_copy (⟨[1, 2, 3], 3, 3⟩ : SimpleVector Nat) = some ⟨[1, 2, 3], 3, 0⟩ ∧
    contents (⟨[1, 2, 3], 3, 0⟩ : SimpleVector Nat) = some [1, 2, 3] ∧
    ctor_copy (⟨[1, 2, 3], 3, 0⟩ : SimpleVector Nat) = none ∧
    assign_copy (ctor_default : SimpleVector Nat) ⟨[1, 2, 3], 3, 0⟩ = none ∧
    std_copy [1, 2, 3] 0 3 (ArrayPtr.alloc 0 : ArrayPtr Nat) 0 = none := by
  decide

/-- C4 (the code departs from the claim). The copy constructor initialises
`items_` and `size_` only: the copy of the container `[1, 2, 3]` of capacity 3
owns a buffer of 3 slots and reports `GetCapacity() = 0`. -/
theorem ctor_copy_capacity_zero :
    ctor_init_list [1, 2, 3] = some (⟨[1, 2, 3], 3, 3⟩ : SimpleVector Nat) ∧
    GetCapacity (⟨[1, 2, 3], 3, 3⟩ : SimpleVector Nat) = 3 ∧
    ctor_copy (⟨[1, 2, 3], 3, 3⟩ : SimpleVector Nat) = some ⟨[1, 2, 3], 3, 0⟩ ∧
    GetCapacity (⟨[1, 2, 3], 3, 0⟩ : SimpleVector Nat) = 0 := by
  decide

/-- C5 (the code departs from the claim). The initializer-list constructor
followed by the copy constructor reaches a state with `size_ = 3` and
`capacity_ = 0`, so `size ≤ capacity` fails there; copy assignment hands the
same state to its left-hand side. -/
theorem size_le_capacity_broken_by_copy :
    ∃ v w a : SimpleVector Nat, ctor_init_list [1, 2, 3] = some v ∧ v.size_ ≤ v.capacity_ ∧
      ctor_copy v = some w ∧ ¬ w.size_ ≤ w.capacity_ ∧
      assign_copy ctor_default v = some a ∧ ¬ a.size_ ≤ a.capacity_ :=
  ⟨⟨[1, 2, 3], 3, 3⟩, ⟨[1, 2, 3], 3, 0⟩, ⟨[1, 2, 3], 3, 0⟩, by decide⟩

/-- C6 (the code departs from the claim). After the copy constructor the
capacity counter is 0 while the owned buffer has 3 slots, and after the move
constructor the source has a capacity counter of 0 over a freshly allocated
buffer of 3 slots. -/
theorem capacity_counter_differs_from_slots :
    ∃ w : SimpleVector Nat, ctor_copy ⟨[1, 2, 3], 3, 3⟩ = some w ∧
      w.capacity_ = 0 ∧ w.items_.length = 3 ∧
      (ctor_move (⟨[1, 2, 3], 3, 3⟩ : SimpleVector Nat)).1 = ⟨[1, 2, 3], 3, 3⟩ ∧
      (ctor_move (⟨[1, 2, 3], 3, 3⟩ : SimpleVector Nat)).2.capacity_ = 0 ∧
      (ctor_move (⟨[1, 2, 3], 3, 3⟩ : SimpleVector Nat)).2.items_.length = 3 :=
  ⟨⟨[1, 2, 3], 3, 0⟩, by decide⟩

end SimpleVector

namespace SimpleVector

variable {α : Type}

/-- Either overload of `PushBack` with an argument `x` outside the buffer, on a
container whose size does not exceed the number of slots of its buffer and
whose slot number `size` exists when the growth branch is not taken: the call
returns a container whose size is the old size plus one and whose logical
contents are the old ones followed by `x`. -/
theorem PushBack_appends [Inhabited α] (by_move : Bool) (v : SimpleVector α) (x : α)
    (hs : v.size_ ≤ v.items_.length)
    (hc : v.size_ < v.capacity_ → v.size_ < v.items_.length) :
    ∃ old w, v.contents = some old ∧ push by_move v x = some w ∧
      w.size_ = v.size_ + 1 ∧ w.contents = some (old ++ [x]) ∧
      (∀ i, i < v.size_ → w.items_.read i = v.items_.read i) ∧
      w.items_.read v.size_ = some x := by
  have hlen : (v.items_.take v.size_).length = v.size_ := by simp [hs]
  by_cases hg : v.size_ + 1 > v.capacity_
  · refine ⟨_, ⟨v.items_.take v.size_ ++
        x :: List.replicate (max (v.size_ + 1) (v.capacity_ * 2) - (v.size_ + 1)) default,
      v.size_ + 1, max (v.size_ + 1) (v.capacity_ * 2)⟩, contents_of_le v hs, ?_, rfl, ?_, ?_, ?_⟩
    · cases by_move
      · simpa [push] using PushBack_growth v x hg hs
      · simpa [push] using PushBackMove_growth v x hg hs
    · rw [contents_of_le _ (by simp [hlen])]
      simp only
      rw [show v.items_.take v.size_ ++ x :: List.replicate _ default
          = (v.items_.take v.size_ ++ [x]) ++ List.replicate
            (max (v.size_ + 1) (v.capacity_ * 2) - (v.size_ + 1)) default by simp]
      exact congrArg some (List.take_left' (by simp [hlen]))
    · intro i hi
      exact read_take_append v.items_ _ v.size_ i hs hi
    · show (v.items_.take v.size_ ++ x :: List.replicate _ default)[v.size_]? = some x
      rw [List.getElem?_append_right (by omega)]
      simp [hlen]
  · have hs2 : v.size_ < v.items_.length := hc (by omega)
    refine ⟨_, ⟨v.items_.set v.size_ x, v.size_ + 1, v.capacity_⟩, contents_of_le v hs,
      ?_, rfl, ?_, ?_, ?_⟩
    · cases by_move
      · simpa [push] using PushBack_in_place v x hg hs2
      · simpa [push] using PushBackMove_in_place v x hg hs2
    · rw [contents_of_le _ (by simp; omega)]
      exact congrArg some (list_set_take_succ v.items_ v.size_ x hs2)
    · intro i hi
      exact read_set_ne v.items_ v.size_ i x hi
    · simp [ArrayPtr.read, List.getElem?_set, hs2]

/-- C8 (the code departs from the claim). `PushBack` takes its argument by
reference and reads it in `items_[size_] = item`, after the growth branch has
freed the old buffer.  On the full container `v = [1, 2]` the call
`v.PushBack(v[0])`, in either overload, reads the element `v[0] = 1` from the
freed buffer, where the claim stores 1 at index 2.  Apart from that, on the
state `([9], size 4, capacity 1)`, which the copy constructor followed by
`Insert` at `begin()` reaches, `PushBack` copies four elements out of a buffer
of one slot. -/
theorem PushBack_reads_freed_buffer :
    ctor_init_list [1, 2] = some (⟨[1, 2], 2, 2⟩ : SimpleVector Nat) ∧
    index_op (⟨[1, 2], 2, 2⟩ : SimpleVector Nat) 0 = some 1 ∧
    PushBack (⟨[1, 2], 2, 2⟩ : SimpleVector Nat) (Arg.self 0) = none ∧
    PushBackMove (⟨[1, 2], 2, 2⟩ : SimpleVector Nat) (Arg.self 0) = none ∧
    PushBack (⟨[1, 2], 2, 2⟩ : SimpleVector Nat) (Arg.value 1) = some ⟨[1, 2, 1, 0], 3, 4⟩ ∧
    PushBack (⟨[1, 2, 1, 0], 3, 4⟩ : SimpleVector Nat) (Arg.self 0)
      = some ⟨[1, 2, 1, 1], 4, 4⟩ ∧
    ctor_copy (⟨[1, 2, 3], 3, 3⟩ : SimpleVector Nat) = some ⟨[1, 2, 3], 3, 0⟩ ∧
    Insert (⟨[1, 2, 3], 3, 0⟩ : SimpleVector Nat) 0 (Arg.value 9) = some (⟨[9], 4, 1⟩, 0) ∧
    PushBack (⟨[9], 4, 1⟩ : SimpleVector Nat) (Arg.value 5) = none ∧
    PushBackMove (⟨[9], 4, 1⟩ : SimpleVector Nat) (Arg.value 5) = none := by
  decide

/-- A run of `PushBack` calls with arguments outside the buffer, after
`Reserve(k)`, on a container whose size does not exceed the number of slots of
its buffer and whose capacity counter is that number when `Reserve(k)` does not
reallocate.  The run is split at any one of its calls as `ops1`, the call,
`ops2`, and satisfies `size + n ≤ k` for its length `n`: it returns, the state
`u` before the chosen call does not satisfy the guard of the growth branch, and
the capacity before the call, after the call and after the whole run is the
capacity right after `Reserve(k)`. -/
theorem no_growth_after_Reserve [Inhabited α] (v : SimpleVector α) (k : Nat)
    (ops1 : List (Bool × α)) (by_move : Bool) (x : α) (ops2 : List (Bool × α))
    (hs : v.size_ ≤ v.items_.length) (hc : k ≤ v.capacity_ → v.capacity_ = v.items_.length)
    (hk : v.size_ + (ops1 ++ (by_move, x) :: ops2).length ≤ k) :
    ∃ r u w z, v.Reserve k = some r ∧ k ≤ r.capacity_ ∧
      push_all r ops1 = some u ∧ u.needs_growth = false ∧ u.capacity_ = r.capacity_ ∧
      push by_move u x = some w ∧ w.capacity_ = r.capacity_ ∧
      push_all r (ops1 ++ (by_move, x) :: ops2) = some z ∧ z.capacity_ = r.capacity_ ∧
      z.size_ = v.size_ + (ops1 ++ (by_move, x) :: ops2).length := by
  simp only [List.length_append, List.length_cons] at hk
  have hres : ∃ r, v.Reserve k = some r ∧ r.Inv ∧ r.size_ = v.size_ ∧ k ≤ r.capacity_ := by
    by_cases hg : k > v.capacity_
    · have hlen : (v.items_.take v.size_).length = v.size_ := by simp [hs]
      refine ⟨_, Reserve_growth v k hg hs (by omega), ⟨?_, ?_⟩, rfl, le_refl _⟩
      · simp only; omega
      · simp only [List.length_append, List.length_replicate, hlen]; omega
    · exact ⟨v, Reserve_no_op v k (by omega), ⟨by omega, hc (by omega)⟩, rfl, by omega⟩
  obtain ⟨r, hr, hri, hrs, hkr⟩ := hres
  obtain ⟨u, hu, hui, hus, huc⟩ := push_all_capacity ops1 r hri (by omega)
  have hg : u.needs_growth = false := by simp [needs_growth]; omega
  obtain ⟨w, hw, -, -, -, -, -, hwc⟩ := push_spec by_move u x hui
  obtain ⟨z, hz, -, hzs, hzc⟩ := push_all_capacity (ops1 ++ (by_move, x) :: ops2) r hri
    (by simp only [List.length_append, List.length_cons]; omega)
  refine ⟨r, u, w, z, hr, hkr, hu, hg, huc, hw, ?_, hz, hzc, ?_⟩
  · rw [hg] at hwc
    simpa [huc] using hwc
  · simp only [List.length_append, List.length_cons] at hzs ⊢
    omega

/-- C9 (the code departs from the claim). The copy of `[1, 2, 3]` has the
capacity counter 0, and `Insert(begin(), 9)` on it takes the branch for
capacity 0: the state is then a buffer of one slot with size 4 and capacity 1.
With `s = 4`, `n = 3`, `k = 8`, `Reserve(8)` copies four elements out of that
one slot, so the run `Reserve(8)`, `PushBack` three times is undefined before
its first push; the same run on the copy itself and on a container built from
the reserve-request does keep the capacity 8. -/
theorem Reserve_after_copy_and_Insert_past_end :
    ctor_copy (⟨[1, 2, 3], 3, 3⟩ : SimpleVector Nat) = some ⟨[1, 2, 3], 3, 0⟩ ∧
    Insert (⟨[1, 2, 3], 3, 0⟩ : SimpleVector Nat) 0 (Arg.value 9) = some (⟨[9], 4, 1⟩, 0) ∧
    (⟨[9], 4, 1⟩ : SimpleVector Nat).size_ + 3 ≤ 8 ∧
    Reserve (⟨[9], 4, 1⟩ : SimpleVector Nat) 8 = none ∧
    ((Reserve (⟨[1, 2, 3], 3, 0⟩ : SimpleVector Nat) 8).bind
      (fun r => push_all r [(false, 5), (true, 6), (false, 7)])).map GetCapacity = some 8 ∧
    ((ctor_reserve 8 : Option (SimpleVector Nat)).bind
      (fun r => push_all r [(false, 5), (true, 6), (false, 7)])).map GetCapacity = some 8 := by
  decide

/-- The member `Reserve` on a container whose size does not exceed the number of
slots of its buffer: when `new_capacity > capacity` and the size fits in
`new_capacity`, the call returns a container whose capacity counter and number
of slots are `new_capacity`, with the size and every element at the indices
`[0, size)` unchanged; when `new_capacity ≤ capacity`, it returns `v` itself on
every container. -/
theorem Reserve_contract [Inhabited α] (v : SimpleVector α) (new_capacity : Nat)
    (hs : v.size_ ≤ v.items_.length) :
    (new_capacity > v.capacity_ → v.size_ ≤ new_capacity →
      ∃ old w, v.contents = some old ∧ v.Reserve new_capacity = some w ∧
        w.capacity_ = new_capacity ∧ w.items_.length = new_capacity ∧
        w.size_ = v.size_ ∧ w.contents = some old ∧
        (∀ i, i < v.size_ → w.items_.read i = v.items_.read i)) ∧
    (new_capacity ≤ v.capacity_ → v.Reserve new_capacity = some v) := by
  constructor
  · intro hg hn
    have hlen : (v.items_.take v.size_).length = v.size_ := by simp [hs]
    refine ⟨_, _, contents_of_le v hs, Reserve_growth v new_capacity hg hs hn, rfl, ?_, rfl,
      ?_, ?_⟩
    · simp only [List.length_append, List.length_replicate, hlen]; omega
    · rw [contents_of_le _ (by simp [hlen])]
      exact congrArg some (List.take_left' hlen)
    · intro i hi
      exact read_take_append v.items_ _ v.size_ i hs hi
  · intro hle
    exact Reserve_no_op v new_capacity hle

/-- C10 (the code departs from the claim). The copy `w` of `[1, 2, 3]` has size
3, the elements 1, 2, 3 and the capacity counter 0.  `w.Reserve(2)` has
`new_capacity = 2 > capacity = 0`, allocates two slots and copies the three
elements of `w` into them, outside the allocation, where the claim keeps the
size 3 and the three elements. -/
theorem Reserve_on_copy_past_end :
    ctor_init_list [1, 2, 3] = some (⟨[1, 2, 3], 3, 3⟩ : SimpleVector Nat) ∧
    ctor_copy (⟨[1, 2, 3], 3, 3⟩ : SimpleVector Nat) = some ⟨[1, 2, 3], 3, 0⟩ ∧
    contents (⟨[1, 2, 3], 3, 0⟩ : SimpleVector Nat) = some [1, 2, 3] ∧
    2 > GetCapacity (⟨[1, 2, 3], 3, 0⟩ : SimpleVector Nat) ∧
    Reserve (⟨[1, 2, 3], 3, 0⟩ : SimpleVector Nat) 2 = none ∧
    std_copy [1, 2, 3] 0 3 (ArrayPtr.alloc 2 : ArrayPtr Nat) 0 = none := by
  decide

end SimpleVector

/-! ## Lemmas on the in-place algorithms -/

section InPlaceLemmas

variable {α : Type}

theorem list_take_set_of_le (l : List α) (m d : Nat) (x : α) (h : m ≤ d) :
    (l.set d x).take m = l.take m := by
  apply List.ext_getElem?
  intro i
  simp only [List.getElem?_take, List.getElem?_set]
  by_cases hi : i < m
  · have : d ≠ i := by omega
    simp [hi, this]
  · simp [hi]

theorem move_within_loop_eq (n : Nat) : ∀ (p : ArrayPtr α) (first d : Nat),
    d < first → first + n ≤ p.length →
    move_within_loop n p first d
      = some (p.take d ++ (p.drop first).take n ++ p.drop (d + n)) := by
  induction n with
  | zero => intro p first d _ _; simp [move_within_loop]
  | succ n ih =>
    intro p first d hd hs
    have hlt : first < p.length := by omega
    have hdlt : d < p.length := by omega
    have hlen : first + 1 + n ≤ (p.set d (p.get ⟨first, hlt⟩)).length := by simp; omega
    simp only [move_within_loop, ArrayPtr.read_of_lt p first hlt, ArrayPtr.write_of_lt p d _ hdlt,
      Option.bind_eq_bind, Option.some_bind,
      ih (p.set d (p.get ⟨first, hlt⟩)) (first + 1) (d + 1) (by omega) hlen]
    rw [list_set_take_succ p d _ hdlt, List.drop_set_of_lt _ p (by omega),
      List.drop_set_of_lt _ p (by omega), List.drop_eq_getElem_cons hlt, List.take_succ_cons]
    simp [Nat.add_assoc, Nat.add_comm 1 n]

theorem list_take_succ_drop (l : List α) (k n : Nat) (h : k + n < l.length) :
    (l.drop k).take (n + 1) = (l.drop k).take n ++ [l.get ⟨k + n, h⟩] := by
  rw [List.take_succ]
  simp [List.getElem?_drop, List.getElem?_eq_getElem h]

theorem copy_backward_within_loop_eq (n : Nat) : ∀ (p : ArrayPtr α) (last d_last : Nat),
    n ≤ last → last ≤ d_last → d_last ≤ p.length →
    copy_backward_within_loop n p last d_last
      = some (p.take (d_last - n) ++ (p.drop (last - n)).take n ++ p.drop d_last) := by
  induction n with
  | zero => intro p last d_last _ _ _; simp [copy_backward_within_loop]
  | succ n ih =>
    intro p last d_last h1 h2 h3
    obtain ⟨l, rfl⟩ : ∃ l, last = l + 1 := ⟨last - 1, by omega⟩
    obtain ⟨d, rfl⟩ : ∃ d, d_last = d + 1 := ⟨d_last - 1, by omega⟩
    have hlt : l < p.length := by omega
    have hdlt : d < p.length := by omega
    have hlen : d ≤ (p.set d (p.get ⟨l, hlt⟩)).length := by simp; omega
    simp only [copy_backward_within_loop, ArrayPtr.read_of_lt p l hlt,
      ArrayPtr.write_of_lt p d _ hdlt, Option.bind_eq_bind, Option.some_bind,
      ih (p.set d (p.get ⟨l, hlt⟩)) l d (by omega) (by omega) hlen]
    have e1 : l + 1 - (n + 1) = l - n := by omega
    have e2 : d + 1 - (n + 1) = d - n := by omega
    have e3 : l - n + n = l := by omega
    have hl2 : l - n + n < p.length := by omega
    rw [e1, e2, list_take_set_of_le p (d - n) d _ (by omega),
      list_take_succ_drop p (l - n) n hl2]
    have e4 : ((p.set d (p.get ⟨l, hlt⟩)).drop (l - n)).take n = (p.drop (l - n)).take n := by
      apply List.ext_getElem?
      intro i
      simp only [List.getElem?_take, List.getElem?_drop, List.getElem?_set]
      by_cases hi : i < n
      · have : d ≠ l - n + i := by omega
        simp [hi, this]
      · simp [hi]
    have e5 : (p.set d (p.get ⟨l, hlt⟩)).drop d = p.get ⟨l, hlt⟩ :: p.drop (d + 1) := by
      rw [List.drop_eq_getElem_cons (by simpa using hdlt)]
      simp [List.drop_set_of_lt]
    rw [e4, e5]
    simp [e3]

end InPlaceLemmas

namespace SimpleVector

variable {α : Type}

theorem Erase_eq (v : SimpleVector α) (count : Nat) (h1 : count < v.size_)
    (h2 : v.size_ ≤ v.items_.length) :
    v.Erase count = some (⟨v.items_.take count ++
      (v.items_.drop (count + 1)).take (v.size_ - (count + 1)) ++ v.items_.drop (v.size_ - 1),
      v.size_ - 1, v.capacity_⟩, count) := by
  have h := move_within_loop_eq (v.size_ - (count + 1)) v.items_ (count + 1) count (by omega)
    (by omega)
  have e : count + (v.size_ - (count + 1)) = v.size_ - 1 := by omega
  rw [e] at h
  simp [Erase, h1, std_move_within, Nat.not_lt.mpr (show count + 1 ≤ v.size_ by omega), h]

theorem list_set_at_length (l : List α) (y x : α) (rest : List α) :
    (l ++ y :: rest).set l.length x = l ++ x :: rest := by
  simp [List.set_append]

theorem Insert_in_place_eq [Inhabited α] (v : SimpleVector α) (count : Nat) (value : α)
    (h0 : count ≤ v.size_) (h1 : v.size_ < v.capacity_) (h2 : v.size_ < v.items_.length) :
    v.Insert count (Arg.value value) = some (⟨v.items_.take count ++ value ::
      ((v.items_.drop count).take (v.size_ - count) ++ v.items_.drop (v.size_ + 1)),
      v.size_ + 1, v.capacity_⟩, count) ∧
    v.InsertMove count (Arg.value value) = some (⟨v.items_.take count ++ value ::
      ((v.items_.drop count).take (v.size_ - count) ++ v.items_.drop (v.size_ + 1)),
      v.size_ + 1, v.capacity_⟩, count) := by
  have h := copy_backward_within_loop_eq (v.size_ - count) v.items_ v.size_ (v.size_ + 1)
    (by omega) (by omega) (by omega)
  have e1 : v.size_ + 1 - (v.size_ - count) = count + 1 := by omega
  have e2 : v.size_ - (v.size_ - count) = count := by omega
  rw [e1, e2] at h
  have hc : count < v.items_.length := by omega
  have hb : std_copy_backward_within v.items_ count v.size_ (v.size_ + 1)
      = some (v.items_.take (count + 1) ++ ((v.items_.drop count).take (v.size_ - count) ++
          v.items_.drop (v.size_ + 1))) := by
    simp [std_copy_backward_within, Nat.not_lt.mpr h0, h]
  have hlen : (v.items_.take count).length = count := by simp; omega
  have hw : ArrayPtr.write (v.items_.take (count + 1) ++
      ((v.items_.drop count).take (v.size_ - count) ++ v.items_.drop (v.size_ + 1))) count value
      = some (v.items_.take count ++ value ::
          ((v.items_.drop count).take (v.size_ - count) ++ v.items_.drop (v.size_ + 1))) := by
    rw [ArrayPtr.write_of_lt _ _ _ (by simp; omega)]
    congr 1
    have hset := list_set_at_length (v.items_.take count) (v.items_.get ⟨count, hc⟩) value
      ((v.items_.drop count).take (v.size_ - count) ++ v.items_.drop (v.size_ + 1))
    rw [hlen] at hset
    have e : v.items_.take (count + 1)
        = v.items_.take count ++ [v.items_.get ⟨count, hc⟩] := by
      rw [List.take_succ, List.getElem?_eq_getElem hc]; rfl
    rw [e, List.append_assoc, List.singleton_append]
    exact hset
  have hne : v.capacity_ ≠ 0 := by omega
  constructor
  · simp [Insert, Arg.deref, Nat.not_lt.mpr h0, hne, h1, hb, hw]
  · simp [InsertMove, Arg.deref, Nat.not_lt.mpr h0, hne, h1, hb, hw]

end SimpleVector

/-! ## The claims, continued -/

namespace SimpleVector

variable {α : Type}

/-- The member `Erase` on a container whose size does not exceed the number of
slots of its buffer, with logical contents `old`, at an index `i < size`: it
returns the position `i` and a container whose logical contents are the
elements `[0, i)` of `old` followed by its elements `[i + 1, size)`, whose size
is one less and whose capacity is unchanged. -/
theorem Erase_contract (v : SimpleVector α) (i : Nat) (hs : v.size_ ≤ v.items_.length)
    (hi : i < v.size_) :
    ∃ old w, v.contents = some old ∧ v.Erase i = some (w, i) ∧
      w.size_ + 1 = v.size_ ∧ w.capacity_ = v.capacity_ ∧
      w.contents = some (old.take i ++ old.drop (i + 1)) := by
  refine ⟨_, _, contents_of_le v hs, Erase_eq v i hi hs, ?_, rfl, ?_⟩
  · simp only; omega
  · have hlen : (v.items_.take i ++
        (v.items_.drop (i + 1)).take (v.size_ - (i + 1))).length = v.size_ - 1 := by
      simp; omega
    rw [contents_of_le _ (by simp; omega)]
    simp only
    rw [List.take_left' hlen, List.take_take, Nat.min_eq_left (by omega), List.drop_take]

/-- C13 (the code departs from the claim). The copy of `[1, 2, 3]` has the
capacity counter 0, and `Insert(begin(), 9)` on it takes the branch for
capacity 0: the state is then a non-empty container of size 4 over a buffer of
one slot.  `Erase` at index 1 of it moves the elements at the indices 2 and 3,
which lie outside that buffer; on `[1, 2, 3]` itself and on its copy `Erase` at
index 1 gives `[1, 3]`. -/
theorem Erase_after_copy_and_Insert_past_end :
    ctor_copy (⟨[1, 2, 3], 3, 3⟩ : SimpleVector Nat) = some ⟨[1, 2, 3], 3, 0⟩ ∧
    Insert (⟨[1, 2, 3], 3, 0⟩ : SimpleVector Nat) 0 (Arg.value 9) = some (⟨[9], 4, 1⟩, 0) ∧
    1 < GetSize (⟨[9], 4, 1⟩ : SimpleVector Nat) ∧
    Erase (⟨[9], 4, 1⟩ : SimpleVector Nat) 1 = none ∧
    std_move_within ([9] : ArrayPtr Nat) (1 + 1) 4 1 = none ∧
    (Erase (⟨[1, 2, 3], 3, 3⟩ : SimpleVector Nat) 1).map (fun r => (r.1.contents, r.2))
      = some (some [1, 3], 1) ∧
    (Erase (⟨[1, 2, 3], 3, 0⟩ : SimpleVector Nat) 1).map (fun r => (r.1.contents, r.2))
      = some (some [1, 3], 1) := by
  decide

end SimpleVector

namespace SimpleVector

variable {α : Type}

/-- C14. On every container `v` that satisfies the invariants of the data
model, `Clear` sets the size to 0 and keeps the capacity; every run of at most
`capacity` calls of `PushBack` after it (either overload, any values as
arguments, held outside the buffer) returns with the capacity unchanged;
and at every call of such a run the guard of the growth branch is false. -/
theorem Clear_then_push [Inhabited α] (v : SimpleVector α) (hv : v.Inv) :
    v.Clear.size_ = 0 ∧ v.Clear.capacity_ = v.capacity_ ∧
    (∀ ops : List (Bool × α), ops.length ≤ v.capacity_ →
      ∃ u, push_all v.Clear ops = some u ∧ u.capacity_ = v.capacity_ ∧
        u.size_ = ops.length) ∧
    (∀ (ops1 : List (Bool × α)) (by_move : Bool) (x : α) (ops2 : List (Bool × α)),
      (ops1 ++ (by_move, x) :: ops2).length ≤ v.capacity_ →
      ∃ u w, push_all v.Clear ops1 = some u ∧ u.needs_growth = false ∧
        push by_move u x = some w ∧ w.capacity_ = v.capacity_) := by
  have hc : v.Clear.Inv := by
    obtain ⟨_, h2⟩ := hv
    exact ⟨Nat.zero_le _, h2⟩
  refine ⟨rfl, rfl, ?_, ?_⟩
  · intro ops hlen
    obtain ⟨u, hu, -, hus, huc⟩ := push_all_capacity ops v.Clear hc
      (by simp only [Clear]; omega)
    exact ⟨u, hu, huc, by simpa [Clear] using hus⟩
  · intro ops1 by_move x ops2 hlen
    simp only [List.length_append, List.length_cons] at hlen
    obtain ⟨u, hu, hui, hus, huc⟩ := push_all_capacity ops1 v.Clear hc
      (by simp only [Clear]; omega)
    simp only [Clear] at hus huc
    have hg : u.needs_growth = false := by simp [needs_growth]; omega
    obtain ⟨w, hw, -, -, -, -, -, hwc⟩ := push_spec by_move u x hui
    refine ⟨u, w, hu, hg, hw, ?_⟩
    rw [hg] at hwc
    simpa [huc] using hwc

/-- Witness for C14: `Clear` on `[1, 2, 3]` held in four slots, then four
`PushBack` calls. -/
theorem Clear_then_push_witness :
    (⟨[1, 2, 3, 0], 3, 4⟩ : SimpleVector Nat).Inv ∧
    (Clear (⟨[1, 2, 3, 0], 3, 4⟩ : SimpleVector Nat)).size_ = 0 ∧
    (Clear (⟨[1, 2, 3, 0], 3, 4⟩ : SimpleVector Nat)).capacity_ = 4 ∧
    (∃ u, push_all (Clear (⟨[1, 2, 3, 0], 3, 4⟩ : SimpleVector Nat))
        [(false, 5), (true, 6), (false, 7), (true, 8)] = some u ∧
      u.capacity_ = 4 ∧ u.size_ = 4) ∧
    push_all (Clear (⟨[1, 2, 3, 0], 3, 4⟩ : SimpleVector Nat))
        [(false, 5), (true, 6), (false, 7), (true, 8)] = some ⟨[5, 6, 7, 8], 4, 4⟩ :=
  ⟨by decide, (Clear_then_push ⟨[1, 2, 3, 0], 3, 4⟩ (by decide)).1,
    (Clear_then_push ⟨[1, 2, 3, 0], 3, 4⟩ (by decide)).2.1,
    (Clear_then_push ⟨[1, 2, 3, 0], 3, 4⟩ (by decide)).2.2.1
      [(false, 5), (true, 6), (false, 7), (true, 8)] (by decide),
    by decide⟩

/-- C15 (the code departs from the claim). In `operator=(SimpleVector&& rhs)`
the statement `auto temp(rhs)` copy-constructs, because `rhs` is an lvalue
there.  Move-assigning `v = [1, 2, 3]` into a default-constructed `a` leaves
`v` with size 3 and all its elements, not with size 0; `a` receives the size
and the elements of `v` (and the capacity counter 0 of a copy), while the move
constructor on the same `v` does leave its source with size 0. -/
theorem assign_move_keeps_source :
    ctor_init_list [1, 2, 3] = some (⟨[1, 2, 3], 3, 3⟩ : SimpleVector Nat) ∧
    assign_move (ctor_default : SimpleVector Nat) ⟨[1, 2, 3], 3, 3⟩
      = some (⟨[1, 2, 3], 3, 0⟩, ⟨[1, 2, 3], 3, 3⟩) ∧
    (assign_move (ctor_default : SimpleVector Nat) ⟨[1, 2, 3], 3, 3⟩).map
      (fun r => GetSize r.2) = some 3 ∧
    GetSize (ctor_move (⟨[1, 2, 3], 3, 3⟩ : SimpleVector Nat)).2 = 0 := by
  decide

/-- C16. For every container `v`, the move constructor gives the new container
the buffer, the size and the capacity counter of `v`, hence its elements at the
indices `[0, size)`, and leaves `v` with size 0 and capacity 0. -/
theorem ctor_move_contract [Inhabited α] (v : SimpleVector α) :
    (ctor_move v).1 = v ∧
    (ctor_move v).1.size_ = v.size_ ∧ (ctor_move v).1.capacity_ = v.capacity_ ∧
    (ctor_move v).1.contents = v.contents ∧
    (∀ i, (ctor_move v).1.items_.read i = v.items_.read i) ∧
    (ctor_move v).2.size_ = 0 ∧ (ctor_move v).2.capacity_ = 0 :=
  ⟨rfl, rfl, rfl, rfl, fun _ => rfl, rfl, rfl⟩

/-- C18. For every pair of containers `a` and `b`, `a.swap(b)` leaves `a` with
the buffer, size and capacity counter `b` had and `b` with those `a` had; a
second swap restores both. -/
theorem swap_contract (a b : SimpleVector α) :
    (swap a b).1 = b ∧ (swap a b).2 = a ∧
    (swap a b).1.size_ = b.size_ ∧ (swap a b).1.capacity_ = b.capacity_ ∧
    (swap a b).1.items_ = b.items_ ∧
    (swap a b).2.size_ = a.size_ ∧ (swap a b).2.capacity_ = a.capacity_ ∧
    (swap a b).2.items_ = a.items_ ∧
    swap (swap a b).1 (swap a b).2 = (a, b) :=
  ⟨rfl, rfl, rfl, rfl, rfl, rfl, rfl, rfl, rfl⟩

/-- Both overloads of `Insert` with an argument `x` outside the buffer, on a
container with `size < capacity` whose slot number `size` exists, with logical
contents `old`, at an index `i ≤ size`: they return the position `i` and a
container with the same capacity, the size plus one, and the logical contents
`old[0, i)`, `x`, `old[i, size)`; the element at the returned position is
`x`. -/
theorem Insert_in_place_contract [Inhabited α] (v : SimpleVector α) (i : Nat) (x : α)
    (hlt : v.size_ < v.capacity_) (hs : v.size_ < v.items_.length) (hi : i ≤ v.size_) :
    ∃ old w, v.contents = some old ∧
      v.Insert i (Arg.value x) = some (w, i) ∧ v.InsertMove i (Arg.value x) = some (w, i) ∧
      w.capacity_ = v.capacity_ ∧ w.size_ = v.size_ + 1 ∧
      w.contents = some (old.take i ++ x :: old.drop i) ∧
      w.index_op i = some x := by
  obtain ⟨e1, e2⟩ := Insert_in_place_eq v i x hi hlt hs
  have hlen : (v.items_.take i).length = i := by simp; omega
  refine ⟨_, _, contents_of_le v (by omega), e1, e2, rfl, rfl, ?_, ?_⟩
  · rw [contents_of_le _ (by simp; omega)]
    simp only
    have hl2 : (v.items_.take i ++ x :: (v.items_.drop i).take (v.size_ - i)).length
        = v.size_ + 1 := by simp; omega
    have e : v.items_.take i ++ x :: ((v.items_.drop i).take (v.size_ - i) ++
        v.items_.drop (v.size_ + 1))
        = (v.items_.take i ++ x :: (v.items_.drop i).take (v.size_ - i)) ++
          v.items_.drop (v.size_ + 1) := by simp
    rw [e, List.take_left' hl2, List.take_take, Nat.min_eq_left hi, List.drop_take]
  · simp only [index_op, show i < v.size_ + 1 by omega, if_true]
    show (v.items_.take i ++ x :: _)[i]? = some x
    rw [List.getElem?_append_right (by omega)]
    simp [hlen]

/-- C19 (the code departs from the claim). `Insert` takes its argument by
reference and reads it in `items_[count] = value`, after `std::copy_backward`
has shifted the elements.  On the container `v = [1, 2, 3]` of capacity 5,
built from the reserve-request of 5 and three `PushBack` calls, the call
`v.Insert(v.cbegin(), v[2])`, in either overload, has `0 < capacity`,
`size < capacity`, `i = 0` and `x = v[2] = 3`; it returns position 0 and the
contents `[2, 1, 2, 3]`, with 2 at the returned position, where the claim has
`[3, 1, 2, 3]`, which is what the call with an object of value 3 outside the
buffer gives. -/
theorem Insert_in_place_reads_shifted_argument :
    (ctor_reserve 5 : Option (SimpleVector Nat)) = some ⟨[0, 0, 0, 0, 0], 0, 5⟩ ∧
    push_all (⟨[0, 0, 0, 0, 0], 0, 5⟩ : SimpleVector Nat) [(false, 1), (false, 2), (false, 3)]
      = some ⟨[1, 2, 3, 0, 0], 3, 5⟩ ∧
    index_op (⟨[1, 2, 3, 0, 0], 3, 5⟩ : SimpleVector Nat) 2 = some 3 ∧
    Insert (⟨[1, 2, 3, 0, 0], 3, 5⟩ : SimpleVector Nat) 0 (Arg.self 2)
      = some (⟨[2, 1, 2, 3, 0], 4, 5⟩, 0) ∧
    InsertMove (⟨[1, 2, 3, 0, 0], 3, 5⟩ : SimpleVector Nat) 0 (Arg.self 2)
      = some (⟨[2, 1, 2, 3, 0], 4, 5⟩, 0) ∧
    contents (⟨[2, 1, 2, 3, 0], 4, 5⟩ : SimpleVector Nat) = some [2, 1, 2, 3] ∧
    index_op (⟨[2, 1, 2, 3, 0], 4, 5⟩ : SimpleVector Nat) 0 = some 2 ∧
    Insert (⟨[1, 2, 3, 0, 0], 3, 5⟩ : SimpleVector Nat) 0 (Arg.value 3)
      = some (⟨[3, 1, 2, 3, 0], 4, 5⟩, 0) := by
  decide

end SimpleVector

namespace SimpleVector

variable {α : Type}

theorem list_lt_cons_iff [LT α] (x y : α) (as bs : List α) (h1 : ¬ x < y) (h2 : ¬ y < x) :
    List.lt (x :: as) (y :: bs) ↔ List.lt as bs := by
  constructor
  · intro h
    cases h with
    | head _ _ h => exact absurd h h1
    | tail _ _ h => exact h
  · intro h
    exact List.lt.tail h1 h2 h

theorem take_drop_succ (l : List α) (k n : Nat) (h : k + (n + 1) ≤ l.length) :
    (l.drop k).take (n + 1)
      = l.get ⟨k, by omega⟩ :: (l.drop (k + 1)).take n := by
  rw [List.drop_eq_getElem_cons (by omega), List.take_succ_cons]
  rfl

/-- The loop of `std::lexicographical_compare` returns, and it returns `true`
exactly when the first range is below the second in the order `List.lt`. -/
theorem lexicographical_compare_loop_spec [LT α] [DecidableRel (α := α) (· < ·)]
    (a b : ArrayPtr α) (n1 : Nat) : ∀ (first1 n2 first2 : Nat),
    first1 + n1 ≤ a.length → first2 + n2 ≤ b.length →
    ∃ r, lexicographical_compare_loop a b n1 first1 n2 first2 = some r ∧
      (r = true ↔ List.lt ((a.drop first1).take n1) ((b.drop first2).take n2)) := by
  induction n1 with
  | zero =>
    intro first1 n2 first2 _ h2
    refine ⟨decide (n2 ≠ 0), by simp [lexicographical_compare_loop], ?_⟩
    cases n2 with
    | zero =>
      simp only [ne_eq, not_true_eq_false, decide_False, List.take_zero]
      constructor
      · intro h; cases h
      · intro h; cases h
    | succ m =>
      rw [take_drop_succ b first2 m h2]
      simp only [ne_eq, Nat.add_one_ne_zero, not_false_eq_true, decide_True, List.take_zero,
        true_iff]
      exact List.lt.nil _ _
  | succ n1 ih =>
    intro first1 n2 first2 h1 h2
    rw [take_drop_succ a first1 n1 h1]
    cases n2 with
    | zero =>
      refine ⟨false, by simp [lexicographical_compare_loop], ?_⟩
      simp only [List.take_zero]
      constructor
      · intro h; cases h
      · intro h; cases h
    | succ m =>
      rw [take_drop_succ b first2 m h2]
      have ha : first1 < a.length := by omega
      have hb : first2 < b.length := by omega
      simp only [lexicographical_compare_loop, ArrayPtr.read_of_lt a first1 ha,
        ArrayPtr.read_of_lt b first2 hb, Option.bind_eq_bind, Option.some_bind]
      by_cases hxy : a.get ⟨first1, ha⟩ < b.get ⟨first2, hb⟩
      · refine ⟨true, by rw [if_pos hxy], ?_⟩
        simp only [true_iff]
        exact List.lt.head _ _ hxy
      · by_cases hyx : b.get ⟨first2, hb⟩ < a.get ⟨first1, ha⟩
        · refine ⟨false, by rw [if_neg hxy, if_pos hyx], ?_⟩
          constructor
          · intro h; cases h
          · intro h
            cases h with
            | head _ _ h => exact absurd h hxy
            | tail _ h _ => exact absurd hyx h
        · obtain ⟨r, hr, hiff⟩ := ih (first1 + 1) m (first2 + 1) (by omega) (by omega)
          refine ⟨r, by rw [if_neg hxy, if_neg hyx, hr], ?_⟩
          rw [hiff]
          exact (list_lt_cons_iff _ _ _ _ hxy hyx).symm

/-- For a linear order the order `List.lt` is the lexicographic order in the
words of the specification. -/
theorem list_lt_iff_LexLess [LinearOrder α] (a : List α) : ∀ b : List α,
    List.lt a b ↔ LexLess a b := by
  induction a with
  | nil =>
    intro b
    cases b with
    | nil =>
      constructor
      · intro h; cases h
      · intro h
        rcases h with ⟨y, t, h⟩ | ⟨p, x, s, y, t, h, -, -⟩
        · simp at h
        · simp at h
    | cons y t =>
      constructor
      · intro _; exact Or.inl ⟨y, t, rfl⟩
      · intro _; exact List.lt.nil _ _
  | cons x as ih =>
    intro b
    cases b with
    | nil =>
      constructor
      · intro h; cases h
      · intro h
        rcases h with ⟨y, t, h⟩ | ⟨p, x1, s, y, t, -, h, -⟩
        · simp at h
        · simp at h
    | cons y bs =>
      constructor
      · intro h
        cases h with
        | head _ _ h => exact Or.inr ⟨[], x, as, y, bs, rfl, rfl, h⟩
        | tail h1 h2 h =>
          have hxy : x = y := le_antisymm (not_lt.mp h2) (not_lt.mp h1)
          subst hxy
          rcases (ih bs).mp h with ⟨y1, t, hb⟩ | ⟨p, x1, s, y1, t, ha, hb, hlt⟩
          · exact Or.inl ⟨y1, t, by simp [hb]⟩
          · exact Or.inr ⟨x :: p, x1, s, y1, t, by simp [ha], by simp [hb], hlt⟩
      · intro h
        rcases h with ⟨y1, t, hb⟩ | ⟨p, x1, s, y1, t, ha, hb, hlt⟩
        · simp only [List.cons_append, List.cons.injEq] at hb
          obtain ⟨rfl, hb⟩ := hb
          exact List.lt.tail (lt_irrefl _) (lt_irrefl _) ((ih bs).mpr (Or.inl ⟨y1, t, hb⟩))
        · cases p with
          | nil =>
            simp only [List.nil_append, List.cons.injEq] at ha hb
            obtain ⟨rfl, -⟩ := ha
            obtain ⟨rfl, -⟩ := hb
            exact List.lt.head _ _ hlt
          | cons c p =>
            simp only [List.cons_append, List.cons.injEq] at ha hb
            obtain ⟨rfl, ha⟩ := ha
            obtain ⟨rfl, hb⟩ := hb
            exact List.lt.tail (lt_irrefl _) (lt_irrefl _)
              ((ih bs).mpr (Or.inr ⟨p, x1, s, y1, t, ha, hb, hlt⟩))

/-- The free function `operator<` on two containers whose sizes fit their
buffers: it returns, and it returns `true` exactly when the logical contents of
the first are below those of the second in the order `List.lt`, for any
relation `<` on the elements. -/
theorem operator_lt_spec [LT α] [DecidableRel (α := α) (· < ·)] (a b : SimpleVector α)
    (ha : a.size_ ≤ a.items_.length) (hb : b.size_ ≤ b.items_.length) :
    ∃ r, operator_lt a b = some r ∧
      (r = true ↔ List.lt (a.items_.take a.size_) (b.items_.take b.size_)) := by
  obtain ⟨r, hr, hiff⟩ := lexicographical_compare_loop_spec a.items_ b.items_ a.size_ 0
    b.size_ 0 (by omega) (by omega)
  refine ⟨r, ?_, by simpa using hiff⟩
  simp [operator_lt, std_lexicographical_compare, hr]

end SimpleVector

namespace SimpleVector

variable {α : Type}

/-- The comparison operators on two containers whose sizes do not exceed the
numbers of slots of their buffers, over a linearly ordered element type:
`a < b` returns, and returns `true` exactly when the logical contents of `a`
are lexicographically smaller than those of `b` (a proper initial segment, or
the smaller element at the first difference); `a > b` is `b < a`, `a >= b` is
the negation of `a < b`, and `a <= b` is the negation of `b < a`. -/
theorem operator_lt_lexicographic [LinearOrder α] (a b : SimpleVector α)
    (hsa : a.size_ ≤ a.items_.length) (hsb : b.size_ ≤ b.items_.length) :
    ∃ ca cb r, a.contents = some ca ∧ b.contents = some cb ∧
      operator_lt a b = some r ∧ (r = true ↔ LexLess ca cb) ∧
      operator_gt a b = operator_lt b a ∧
      operator_ge a b = some (!r) ∧
      operator_le a b = (operator_lt b a).map not := by
  obtain ⟨r, hr, hiff⟩ := operator_lt_spec a b hsa hsb
  refine ⟨_, _, r, contents_of_le a hsa, contents_of_le b hsb, hr, ?_, rfl, ?_, rfl⟩
  · rw [hiff]; exact list_lt_iff_LexLess _ _
  · simp [operator_ge, hr]

/-- C17 (the code departs from the claim). The copy of `[1, 2, 3]` has the
capacity counter 0, and `Insert(begin(), 9)` on it takes the branch for
capacity 0: the state `a` is then a container of size 4 over a buffer of one
slot.  Against `b = [9, 1]` the call `a < b` finds the first elements equal and
reads the element of `a` at index 1, outside that buffer, and so do `a >= b`
and `b > a`; on `[1, 2]`, `[1, 2, 3]`, `[1, 3]` the operator returns what the
lexicographic order says. -/
theorem operator_lt_after_copy_and_Insert_past_end :
    ctor_copy (⟨[1, 2, 3], 3, 3⟩ : SimpleVector Nat) = some ⟨[1, 2, 3], 3, 0⟩ ∧
    Insert (⟨[1, 2, 3], 3, 0⟩ : SimpleVector Nat) 0 (Arg.value 9) = some (⟨[9], 4, 1⟩, 0) ∧
    ctor_init_list [9, 1] = some (⟨[9, 1], 2, 2⟩ : SimpleVector Nat) ∧
    operator_lt (⟨[9], 4, 1⟩ : SimpleVector Nat) ⟨[9, 1], 2, 2⟩ = none ∧
    operator_ge (⟨[9], 4, 1⟩ : SimpleVector Nat) ⟨[9, 1], 2, 2⟩ = none ∧
    operator_gt (⟨[9, 1], 2, 2⟩ : SimpleVector Nat) ⟨[9], 4, 1⟩ = none ∧
    operator_lt (⟨[1, 2], 2, 2⟩ : SimpleVector Nat) ⟨[1, 2, 3], 3, 3⟩ = some true ∧
    operator_lt (⟨[1, 2, 3], 3, 3⟩ : SimpleVector Nat) ⟨[1, 3], 2, 2⟩ = some true ∧
    operator_lt (⟨[1, 3], 2, 2⟩ : SimpleVector Nat) ⟨[1, 2, 3], 3, 3⟩ = some false := by
  decide

end SimpleVector
